import Mathlib

set_option maxRecDepth 40000

/-!
Shallow embedding of the VideoQnA retrieval core.

Source files embedded here:
* `src/vector_store.py` — chunking (`chunk_text`), segment mapping
  (`find_segments_for_chunk`), indexing (`add_transcript`), search,
  removal, listing and stats over the backing collection.
* `src/video_qa_system.py` — the orchestrator (`add_video`, `add_videos`,
  `remove_video`).

Python strings are modelled as `List Char`; Python ints as `Int` where a
value can go negative (slice positions), `Nat` otherwise.  Python slicing,
`str.strip`, `range` and the chunking `while` loop (via explicit fuel,
since the source loop need not terminate) are reproduced faithfully.
Float time stamps are modelled as rationals; the backing ChromaDB
collection is modelled as the list of its entries.
-/

/-- Python whitespace test used by `str.strip()` (ASCII whitespace). -/
def isPyWs (c : Char) : Bool :=
  c = ' ' || c = '\t' || c = '\n' || c = '\r' || c = '\x0b' || c = '\x0c'

/-- Clamp a (possibly negative) Python slice index into `[0, n]`,
following Python semantics: negative indices count from the end. -/
def pyIdx (n : Nat) (i : Int) : Nat :=
  if i < 0 then (n + i).toNat else if i ≤ (n : Int) then i.toNat else n

/-- Python slice `l[a:b]`. -/
def pySlice {α : Type} (l : List α) (a b : Int) : List α :=
  (l.take (pyIdx l.length b)).drop (pyIdx l.length a)

/-- Python `str.strip()`: drop whitespace from both ends. -/
def pyStrip (l : List Char) : List Char :=
  ((l.dropWhile isPyWs).reverse.dropWhile isPyWs).reverse

/-- Python `range(a, b)` over integers. -/
def pyRange (a b : Int) : List Int :=
  (List.range (b - a).toNat).map (fun (k : Nat) => a + (k : Int))

/-- The sentence-boundary markers of `VectorStore.chunk_text`:
`['. ', '! ', '? ', '\n\n']`. -/
def sentEndings : List (List Char) :=
  [['.', ' '], ['!', ' '], ['?', ' '], ['\n', '\n']]

/-- `any(text[i:i+2] == ending for ending in sentence_endings)`. -/
def markerAt (text : List Char) (i : Int) : Bool :=
  sentEndings.any (fun m => decide (pySlice text i (i + 2) = m))

/-- The boundary-search loop of `chunk_text`: starting from `best_break = e`,
scan `i` over `range(max(0, e - 100), e)` and overwrite `best_break` with
`i + 2` at every position where a sentence ending starts. -/
def sentenceBreak (text : List Char) (e : Int) : Int :=
  (pyRange (max 0 (e - 100)) e).foldl
    (fun best i => if markerAt text i then i + 2 else best) e

/-- The end position used for the chunk starting at `start`:
tentatively `start + chunk_size`, adjusted by the boundary search
only when `end < len(text)`. -/
def stepEnd (text : List Char) (cs start : Int) : Int :=
  if start + cs < (text.length : Int) then sentenceBreak text (start + cs)
  else start + cs

/-- The emission step of one loop iteration:
`chunk = text[start:end].strip(); if chunk: chunks.append(chunk)`. -/
def chunkEmit (text : List Char) (cs start : Int) (acc : List (List Char)) :
    List (List Char) :=
  if pyStrip (pySlice text start (stepEnd text cs start)) = [] then acc
  else acc ++ [pyStrip (pySlice text start (stepEnd text cs start))]

/-- The `while start < len(text)` loop of `chunk_text`, with explicit fuel
(`none` = the loop did not finish within `fuel` iterations; the source
loop has no termination guarantee).  Each iteration emits its chunk, then
sets `start = end - overlap` and breaks when `start >= len(text)`. -/
def chunkLoop (text : List Char) (cs ov : Int) :
    Nat → Int → List (List Char) → Option (List (List Char))
  | 0, _, _ => none
  | fuel + 1, start, acc =>
    if start < (text.length : Int) then
      if (text.length : Int) ≤ stepEnd text cs start - ov then
        some (chunkEmit text cs start acc)
      else
        chunkLoop text cs ov fuel (stepEnd text cs start - ov)
          (chunkEmit text cs start acc)
    else some acc

/-- `VectorStore.chunk_text(text, chunk_size, overlap)`: returns `[text]`
whole when `len(text) <= chunk_size`, otherwise runs the chunking loop. -/
def chunk_text (text : List Char) (cs ov : Int) (fuel : Nat) :
    Option (List (List Char)) :=
  if (text.length : Int) ≤ cs then some [text] else chunkLoop text cs ov fuel 0 []

example :
    chunk_text "ab. cd! ef".toList 6 2 9 =
      some ["ab.".toList, ". cd!".toList, "! ef".toList] := by decide

example : chunk_text "ab".toList 1000 200 1 = some ["ab".toList] := by decide

/-- Python `str.lower()`, character by character. -/
def lowerL (l : List Char) : List Char := l.map Char.toLower

/-- `pat` is an initial run of the second list (used to define Python's
substring test `in`). -/
def leadEq : List Char → List Char → Bool
  | [], _ => true
  | _ :: _, [] => false
  | a :: pat, b :: hay => a = b && leadEq pat hay

/-- Python's substring test `pat in hay` on strings. -/
def occursIn (pat : List Char) : List Char → Bool
  | [] => decide (pat = [])
  | c :: rest => leadEq pat (c :: rest) || occursIn pat rest

/-- A timestamped transcript segment (`{start, duration, text}`);
float seconds are modelled as rationals. -/
structure Seg where
  start : ℚ
  duration : ℚ
  text : List Char
deriving DecidableEq

/-- The accumulating `for segment in segments` loop of
`VectorStore._find_segments_for_chunk`. -/
def fsLoop (chunkLower : List Char) : List Seg → List Seg → List Seg
  | acc, [] => acc
  | acc, s :: rest =>
    fsLoop chunkLower
      (if occursIn (lowerL s.text) chunkLower then acc ++ [s] else acc) rest

/-- `VectorStore._find_segments_for_chunk(chunk_text, segments)`. -/
def find_segments_for_chunk (chunk : List Char) (segments : List Seg) : List Seg :=
  fsLoop (lowerL chunk) [] segments

/-- The `metadata` dict stored with each chunk by `add_transcript`.
The optional `start_time`/`end_time` pair is `times`. -/
structure Meta where
  video_id : String
  chunk_index : Nat
  video_title : String
  uploader : String
  upload_date : String
  video_url : String
  duration : Int
  segments_count : Nat
  text_length : Nat
  times : Option (ℚ × ℚ)
deriving DecidableEq

/-- The video-level metadata dict supplied by the transcript extractor
(only the keys `add_transcript` reads). -/
structure VMeta where
  title : String
  uploader : String
  upload_date : String
  url : String
  duration : Int
deriving DecidableEq

/-- One ChromaDB collection entry (id, document, metadata).  The stored
embedding vector is not modelled: no claim mentions its value, and
embedding success/failure is the `embed` parameter of `add_transcript`. -/
structure Entry where
  id : String
  document : List Char
  meta : Meta
deriving DecidableEq

/-- `VectorStore.remove_video`: fetch the ids whose metadata `video_id`
matches, delete those ids when there are any, and return how many ids
were fetched (0 when the video is absent). -/
def remove_video (coll : List Entry) (v : String) : List Entry × Nat :=
  let ids := (coll.filter (fun e => e.meta.video_id = v)).map (·.id)
  if ids = [] then (coll, 0)
  else (coll.filter (fun e => e.id ∉ ids), ids.length)

/-- The body of the `for i, chunk in enumerate(chunks)` loop of
`add_transcript`: build the entry for chunk number `p.1` with text `p.2`. -/
def mkEntry (video_id : String) (metadata : VMeta) (segments : List Seg)
    (p : Nat × List Char) : Entry :=
  let chunk_segments := find_segments_for_chunk p.2 segments
  { id := video_id ++ "_" ++ Nat.repr p.1
    document := p.2
    meta :=
      { video_id := video_id
        chunk_index := p.1
        video_title := metadata.title
        uploader := metadata.uploader
        upload_date := metadata.upload_date
        video_url := metadata.url
        duration := metadata.duration
        segments_count := chunk_segments.length
        text_length := p.2.length
        times :=
          match chunk_segments with
          | [] => none
          | s :: rest =>
            some ((rest.map (·.start)).foldl min s.start,
              (rest.map (fun t => t.start + t.duration)).foldl max
                (s.start + s.duration)) } }

/-- All entries built by the enumeration loop of `add_transcript`. -/
def buildEntries (video_id : String) (metadata : VMeta)
    (chunks : List (List Char)) (segments : List Seg) : List Entry :=
  chunks.enum.map (mkEntry video_id metadata segments)

/-- `VectorStore.add_transcript(transcript_data)`.  `embed` is the
embedding model's batched `encode` (it may fail, i.e. raise); `fuel`
bounds the chunking loop.  Result: `none` when chunking diverges,
`some (coll, .error ())` when the call raises after the delete (either
`encode` fails, or — modelled from ChromaDB's behaviour, external to
this repository — `collection.add` rejects an empty batch with
`ValueError: Expected IDs to be a non-empty list`, so a run producing
zero chunks also ends in the raising state with nothing inserted), and
`some (coll, .ok n)` on success with `n` chunks inserted.  In the
source the delete runs first; `remove_video` is pure here, so writing
it inside each branch is the same program. -/
def add_transcript (embed : List (List Char) → Option (List (List ℚ)))
    (coll : List Entry) (video_id : String) (metadata : VMeta)
    (transcript : List Char) (segments : List Seg) (cs ov : Int)
    (fuel : Nat) : Option (List Entry × Except Unit Nat) :=
  match chunk_text transcript cs ov fuel with
  | none => none
  | some chunks =>
    match embed chunks with
    | none => some ((remove_video coll video_id).1, Except.error ())
    | some _ =>
      if chunks = [] then
        some ((remove_video coll video_id).1, Except.error ())
      else
        some ((remove_video coll video_id).1
            ++ buildEntries video_id metadata chunks segments,
          Except.ok chunks.length)

/-- A row of `VectorStore.list_videos()`. -/
structure VideoRec where
  video_id : String
  title : String
  uploader : String
  upload_date : String
  url : String
  duration : Int
  chunks : Nat
deriving DecidableEq

/-- One iteration of the `for metadata in results['metadatas']` loop of
`list_videos`: create a zero-chunk record on first sight of a
`video_id` (insertion order preserved), then increment its count. -/
def lvInsert (videos : List VideoRec) (m : Meta) : List VideoRec :=
  let videos' :=
    if videos.any (fun r => r.video_id = m.video_id) then videos
    else videos ++
      [{ video_id := m.video_id, title := m.video_title,
         uploader := m.uploader, upload_date := m.upload_date,
         url := m.video_url, duration := m.duration, chunks := 0 }]
  videos'.map (fun r =>
    if r.video_id = m.video_id then { r with chunks := r.chunks + 1 } else r)

/-- `VectorStore.list_videos()`. -/
def list_videos (coll : List Entry) : List VideoRec :=
  (coll.map (·.meta)).foldl lvInsert []

/-- Proof bookkeeping (not part of the source): total chunk count
attributed to video `u` across a list of video records. -/
def wchunks (u : String) (acc : List VideoRec) : Nat :=
  (acc.map (fun r => if r.video_id = u then r.chunks else 0)).sum

/-- `VectorStore.get_collection_stats()`. -/
structure Stats where
  total_chunks : Nat
  total_videos : Nat
  collection_name : String
  embedding_model : String
deriving DecidableEq

def get_collection_stats (coll : List Entry) : Stats :=
  { total_chunks := coll.length
    total_videos := (list_videos coll).length
    collection_name := "video_transcripts"
    embedding_model := "all-MiniLM-L6-v2" }

/-- A formatted result of `VectorStore.search`. -/
structure SearchResult where
  document : List Char
  meta : Meta
  distance : ℚ
  similarity : ℚ
deriving DecidableEq

/-- Insert into a list kept sorted by ascending distance. -/
def sortIns (x : Entry × ℚ) : List (Entry × ℚ) → List (Entry × ℚ)
  | [] => [x]
  | y :: rest => if x.2 ≤ y.2 then x :: y :: rest else y :: sortIns x rest

def sortByDist (l : List (Entry × ℚ)) : List (Entry × ℚ) := l.foldr sortIns []

/-- Modelled from the spec: ChromaDB's `collection.query` (external
library, not part of this repository's sources) returns the stored
entries nearest to the query embedding "ordered by descending
similarity (similarity = 1 − distance)", i.e. by ascending distance,
truncated to `n_results`.  `dist` is the embedding-space distance from
the query to an entry. -/
def chromaQuery (dist : Entry → ℚ) (coll : List Entry) (k : Nat) :
    List (Entry × ℚ) :=
  (sortByDist (coll.map (fun e => (e, dist e)))).take k

/-- `VectorStore.search(query, top_k)`: query the collection, then format
each row as `{document, metadata, distance, similarity = 1 - distance}`
preserving the backend's order.  The query string and embedding model
are abstracted into `dist`. -/
def search (dist : Entry → ℚ) (coll : List Entry) (k : Nat) :
    List SearchResult :=
  (chromaQuery dist coll k).map (fun p =>
    { document := p.1.document, meta := p.1.meta, distance := p.2,
      similarity := 1 - p.2 })

/-- The transcript-data dict produced by
`TranscriptExtractor.extract_and_save_transcript`. -/
structure TranscriptData where
  video_id : String
  metadata : VMeta
  transcript : List Char
  segments : List Seg

/-- The `try` block of `VideoQASystem.add_video`: extract (or load) the
transcript — `none` means extraction reported failure — then index it.
`extract` and `index` may raise (model: `Except.error`). -/
def add_video_body
    (extract : String → Bool → Except String (Option TranscriptData))
    (index : TranscriptData → Except String Nat)
    (url : String) (fr : Bool) : Except String Bool := do
  let td? ← extract url fr
  match td? with
  | none => pure false
  | some td => do
    let _ ← index td
    pure true

/-- `VideoQASystem.add_video(video_url, force_refresh)`: the body wrapped
in `try ... except Exception: return False`. -/
def add_video
    (extract : String → Bool → Except String (Option TranscriptData))
    (index : TranscriptData → Except String Nat)
    (url : String) (fr : Bool) : Except String Bool :=
  tryCatch (add_video_body extract index url fr) (fun _ => pure false)

/-- The pure value `add_video` evaluates to. -/
def add_video_result
    (extract : String → Bool → Except String (Option TranscriptData))
    (index : TranscriptData → Except String Nat)
    (url : String) (fr : Bool) : Bool :=
  match add_video_body extract index url fr with
  | Except.ok b => b
  | Except.error _ => false

/-- `results[url] = value` on a Python dict modelled as an
insertion-ordered association list. -/
def dictInsert (m : List (String × Bool)) (k : String) (v : Bool) :
    List (String × Bool) :=
  if m.any (fun p => p.1 = k) then
    m.map (fun p => if p.1 = k then (k, v) else p)
  else m ++ [(k, v)]

/-- Dict lookup. -/
def lookupPairs : List (String × Bool) → String → Option Bool
  | [], _ => none
  | p :: rest, k => if p.1 = k then some p.2 else lookupPairs rest k

/-- `VideoQASystem.add_videos(video_urls, force_refresh)`: the
`for url in video_urls: results[url] = self.add_video(url, ...)` loop. -/
def add_videos
    (extract : String → Bool → Except String (Option TranscriptData))
    (index : TranscriptData → Except String Nat)
    (urls : List String) (fr : Bool) :
    Except String (List (String × Bool)) :=
  urls.foldlM (fun acc url => do
    let b ← add_video extract index url fr
    pure (dictInsert acc url b)) []

/-- The `try` body plus `except` handler of `VideoQASystem.remove_video`,
as a function of the underlying `VectorStore.remove_video` outcome:
`True` only when the reported removed count is positive; any raised
exception yields `False`. -/
def qa_remove_video_of (r : Except String Nat) : Bool :=
  match r with
  | Except.ok n => decide (0 < n)
  | Except.error _ => false

/-- `VideoQASystem.remove_video(video_id)` over the modelled store (whose
`remove_video` returns normally, catching its own backend errors). -/
def qa_remove_video (coll : List Entry) (video_id : String) : Bool :=
  qa_remove_video_of (Except.ok (remove_video coll video_id).2)

/-- The association list `add_videos` actually produces: each url mapped,
in order, to the boolean `add_video` returns for it. -/
def add_videos_pure
    (extract : String → Bool → Except String (Option TranscriptData))
    (index : TranscriptData → Except String Nat)
    (urls : List String) (fr : Bool) : List (String × Bool) :=
  urls.foldl
    (fun acc url => dictInsert acc url (add_video_result extract index url fr))
    []

/-- A 150-character text of letter 'a' (no sentence boundary anywhere). -/
def aText : List Char := List.replicate 150 'a'

/-- Concrete video metadata used by witnesses. -/
def vm0 : VMeta :=
  { title := "t", uploader := "u", upload_date := "20240101",
    url := "https://example.com", duration := 10 }

/-- A concrete transcript segment whose text occurs in the chunk "ab". -/
def seg0 : Seg := { start := 0, duration := 2, text := ['A', 'b'] }

/-- Concrete transcript data used by witnesses. -/
def td0 : TranscriptData :=
  { video_id := "v", metadata := vm0, transcript := ['a', 'b'],
    segments := [seg0] }

/-- A transcript extractor that succeeds on "g" and raises otherwise. -/
def ex0 : String → Bool → Except String (Option TranscriptData) :=
  fun u _ => if u = "g" then Except.ok (some td0) else Except.error "boom"

/-- An indexer that always succeeds. -/
def ix0 : TranscriptData → Except String Nat := fun _ => Except.ok 1

/-- An embedding call that always succeeds. -/
def embedOk : List (List Char) → Option (List (List ℚ)) := fun _ => some []

/-- An embedding call that always raises. -/
def embedFail : List (List Char) → Option (List (List ℚ)) := fun _ => none

/-- A concrete query-to-entry distance used by witnesses. -/
def dist0 : Entry → ℚ := fun e => (e.meta.chunk_index : ℚ)

/-- A one-entry collection used by witnesses. -/
def coll0 : List Entry := [mkEntry "v" vm0 [] (0, ['a'])]

/-- The single search result over `coll0` (used by witnesses). -/
def sres0 : SearchResult :=
  { document := (mkEntry "v" vm0 [] (0, ['a'])).document
    meta := (mkEntry "v" vm0 [] (0, ['a'])).meta
    distance := dist0 (mkEntry "v" vm0 [] (0, ['a']))
    similarity := 1 - dist0 (mkEntry "v" vm0 [] (0, ['a'])) }

/-! ## Helper lemmas -/

lemma leadEq_iff (pat hay : List Char) :
    leadEq pat hay = true ↔ ∃ r, hay = pat ++ r := by
  induction pat generalizing hay with
  | nil => simp [leadEq]
  | cons a pat ih =>
    cases hay with
    | nil => simp [leadEq]
    | cons b hs =>
      simp only [leadEq, Bool.and_eq_true, decide_eq_true_eq, ih,
        List.cons_append, List.cons.injEq]
      constructor
      · rintro ⟨rfl, r, rfl⟩; exact ⟨r, rfl, rfl⟩
      · rintro ⟨r, rfl, rfl⟩; exact ⟨rfl, r, rfl⟩

lemma occursIn_iff (pat hay : List Char) :
    occursIn pat hay = true ↔ ∃ l r, hay = l ++ pat ++ r := by
  induction hay with
  | nil =>
    simp only [occursIn, decide_eq_true_eq]
    constructor
    · rintro rfl; exact ⟨[], [], rfl⟩
    · rintro ⟨l, r, h⟩
      rcases List.append_eq_nil.mp h.symm with ⟨h1, h2⟩
      exact (List.append_eq_nil.mp h1).2
  | cons c rest ih =>
    simp only [occursIn, Bool.or_eq_true, leadEq_iff, ih]
    constructor
    · rintro (⟨r, hr⟩ | ⟨l, r, rfl⟩)
      · exact ⟨[], r, by simp [hr]⟩
      · exact ⟨c :: l, r, rfl⟩
    · rintro ⟨l, r, h⟩
      cases l with
      | nil => exact Or.inl ⟨r, by simpa using h⟩
      | cons x xs =>
        right
        simp only [List.cons_append, List.cons.injEq] at h
        exact ⟨xs, r, h.2⟩

lemma fsLoop_eq (cl : List Char) (segs : List Seg) :
    ∀ acc, fsLoop cl acc segs =
      acc ++ segs.filter (fun s => occursIn (lowerL s.text) cl) := by
  induction segs with
  | nil => intro acc; simp [fsLoop]
  | cons s rest ih =>
    intro acc
    by_cases h : occursIn (lowerL s.text) cl
    · simp [fsLoop, h, ih]
    · simp [fsLoop, h, ih, Bool.of_not_eq_true h]

/-- CLAIM C5 — Segment mapper semantics: a segment appears in the output
of `_find_segments_for_chunk` iff its lowercased text is a literal
substring of the chunk's lowercased text, and the output is the input
filtered by that test (hence lists matches in input order, witnessed by
the sublist conjunct). -/
theorem segment_mapper_spec (chunk : List Char) (segments : List Seg) :
    (∀ s, s ∈ find_segments_for_chunk chunk segments ↔
      s ∈ segments ∧ ∃ l r, lowerL chunk = l ++ lowerL s.text ++ r)
    ∧ find_segments_for_chunk chunk segments =
        segments.filter (fun s => occursIn (lowerL s.text) (lowerL chunk))
    ∧ (find_segments_for_chunk chunk segments).Sublist segments := by
  have he : find_segments_for_chunk chunk segments =
      segments.filter (fun s => occursIn (lowerL s.text) (lowerL chunk)) := by
    simpa [find_segments_for_chunk] using fsLoop_eq (lowerL chunk) segments []
  refine ⟨fun s => ?_, he, he ▸ List.filter_sublist _⟩
  rw [he, List.mem_filter, occursIn_iff]

lemma remove_video_count (coll : List Entry) (v : String) :
    (remove_video coll v).2 =
      coll.countP (fun e => e.meta.video_id = v) := by
  rw [remove_video]
  by_cases h : (coll.filter (fun e => decide (e.meta.video_id = v))).map
      (fun e => e.id) = []
  · simp only [h, if_pos rfl]
    rw [List.map_eq_nil_iff] at h
    simp [List.countP_eq_length_filter, h]
  · simp only [if_neg h]
    simp [List.countP_eq_length_filter]

/-- CLAIM C10 — orchestrator-level removal reports absence as failure:
`VideoQASystem.remove_video` returns `True` iff the index removed at
least one chunk for the id; an absent id yields `False` (while the
index-level `remove_video` treats it as a non-error returning 0 and
leaves the collection unchanged); a raised exception also yields
`False`. -/
theorem remove_video_reports_absence (coll : List Entry) (video_id : String) :
    (qa_remove_video coll video_id = true ↔
      0 < coll.countP (fun e => e.meta.video_id = video_id))
    ∧ (coll.countP (fun e => e.meta.video_id = video_id) = 0 →
        qa_remove_video coll video_id = false
        ∧ remove_video coll video_id = (coll, 0))
    ∧ ∀ err : String, qa_remove_video_of (Except.error err) = false := by
  have hc := remove_video_count coll video_id
  refine ⟨?_, fun h0 => ⟨?_, ?_⟩, fun _ => rfl⟩
  · simp [qa_remove_video, qa_remove_video_of, hc]
  · simp [qa_remove_video, qa_remove_video_of, hc, h0]
  · have hids : (coll.filter
        (fun e => decide (e.meta.video_id = video_id))).map
        (fun e => e.id) = [] := by
      rw [List.countP_eq_length_filter] at h0
      simp [List.length_eq_zero.mp h0]
    rw [remove_video]
    simp [hids]

/-- Witness for `remove_video_reports_absence` at a concrete input. -/
theorem remove_video_reports_absence_witness :
    qa_remove_video [] "dQw4w9WgXcQ" = false
    ∧ remove_video [] "dQw4w9WgXcQ" = ([], 0) :=
  (remove_video_reports_absence [] "dQw4w9WgXcQ").2.1 (by decide)

lemma mem_sortIns (y x : Entry × ℚ) :
    ∀ l, y ∈ sortIns x l ↔ y = x ∨ y ∈ l := by
  intro l
  induction l with
  | nil => simp [sortIns]
  | cons z rest ih =>
    by_cases h : x.2 ≤ z.2
    · simp [sortIns, h]
    · simp only [sortIns, if_neg h, List.mem_cons, ih]
      tauto

lemma sortIns_pairwise (x : Entry × ℚ) :
    ∀ l, l.Pairwise (fun a b => a.2 ≤ b.2) →
      (sortIns x l).Pairwise (fun a b => a.2 ≤ b.2) := by
  intro l
  induction l with
  | nil => intro _; simp [sortIns]
  | cons y rest ih =>
    intro h
    rw [List.pairwise_cons] at h
    by_cases hxy : x.2 ≤ y.2
    · rw [sortIns, if_pos hxy, List.pairwise_cons]
      refine ⟨?_, List.pairwise_cons.mpr h⟩
      intro z hz
      rcases List.mem_cons.mp hz with rfl | hz
      · exact hxy
      · exact le_trans hxy (h.1 z hz)
    · rw [sortIns, if_neg hxy, List.pairwise_cons]
      refine ⟨?_, ih h.2⟩
      intro z hz
      rcases (mem_sortIns z x rest).mp hz with rfl | hz
      · exact le_of_not_le hxy
      · exact h.1 z hz

lemma sortByDist_pairwise :
    ∀ l, (sortByDist l).Pairwise (fun a b => a.2 ≤ b.2) := by
  intro l
  induction l with
  | nil => simp [sortByDist]
  | cons x rest ih => exact sortIns_pairwise x _ ih

/-- CLAIM C7 — Search result ordering: every result's `similarity` equals
`1 - distance`, and the returned sequence is non-increasing in
similarity from first to last. -/
theorem search_ordering (dist : Entry → ℚ) (coll : List Entry) (k : Nat) :
    (∀ r ∈ search dist coll k, r.similarity = 1 - r.distance)
    ∧ (search dist coll k).Pairwise
        (fun a b => b.similarity ≤ a.similarity) := by
  constructor
  · intro r hr
    simp only [search, List.mem_map] at hr
    obtain ⟨p, _, rfl⟩ := hr
    rfl
  · have hs : (chromaQuery dist coll k).Pairwise (fun a b => a.2 ≤ b.2) :=
      List.Pairwise.sublist (List.take_sublist _ _) (sortByDist_pairwise _)
    rw [search, List.pairwise_map]
    exact hs.imp (fun h => by dsimp only; linarith)

lemma add_video_eq_ok
    (extract : String → Bool → Except String (Option TranscriptData))
    (index : TranscriptData → Except String Nat) (url : String) (fr : Bool) :
    add_video extract index url fr =
      Except.ok (add_video_result extract index url fr) := by
  rw [add_video, add_video_result]
  cases h : add_video_body extract index url fr with
  | ok b => rfl
  | error e => rfl

lemma add_videos_foldlM
    (extract : String → Bool → Except String (Option TranscriptData))
    (index : TranscriptData → Except String Nat) (fr : Bool) :
    ∀ (urls : List String) (acc : List (String × Bool)),
      (urls.foldlM (fun acc url => do
          let b ← add_video extract index url fr
          pure (dictInsert acc url b)) acc : Except String _)
      = Except.ok (urls.foldl
          (fun acc url =>
            dictInsert acc url (add_video_result extract index url fr)) acc) := by
  intro urls
  induction urls with
  | nil => intro acc; rfl
  | cons u rest ih =>
    intro acc
    rw [List.foldlM_cons, add_video_eq_ok]
    exact ih _

lemma lookup_map_update (k : String) (v : Bool) :
    ∀ m : List (String × Bool), m.any (fun p => p.1 = k) = true →
      lookupPairs (m.map (fun p => if p.1 = k then (k, v) else p)) k = some v := by
  intro m
  induction m with
  | nil => intro h; simp at h
  | cons p rest ih =>
    intro h
    by_cases hp : p.1 = k
    · simp [lookupPairs, hp]
    · simp only [List.any_cons, Bool.or_eq_true, decide_eq_true_eq] at h
      rcases h with h | h
      · exact absurd h hp
      · simp [lookupPairs, hp, ih h]

lemma lookup_map_update_other (k : String) (v : Bool) (u : String) (h : u ≠ k) :
    ∀ m : List (String × Bool),
      lookupPairs (m.map (fun p => if p.1 = k then (k, v) else p)) u =
        lookupPairs m u := by
  intro m
  induction m with
  | nil => rfl
  | cons p rest ih =>
    by_cases hp : p.1 = k
    · have hku : ¬ k = u := fun hh => h hh.symm
      have hpu : ¬ p.1 = u := fun hh => hku (hp ▸ hh)
      simp only [List.map_cons, if_pos hp, lookupPairs, if_neg hpu]
      rw [if_neg hku]
      exact ih
    · by_cases hpu : p.1 = u
      · simp only [List.map_cons, if_neg hp, lookupPairs, if_pos hpu]
      · simp only [List.map_cons, if_neg hp, lookupPairs, if_neg hpu]
        exact ih

lemma lookup_append_single (k : String) (v : Bool) :
    ∀ m : List (String × Bool), m.any (fun p => p.1 = k) = false →
      lookupPairs (m ++ [(k, v)]) k = some v := by
  intro m
  induction m with
  | nil => intro _; simp [lookupPairs]
  | cons p rest ih =>
    intro h
    simp only [List.any_cons, Bool.or_eq_false_iff, decide_eq_false_iff_not] at h
    simp [lookupPairs, h.1, ih h.2]

lemma lookup_append_single_other (k : String) (v : Bool) (u : String)
    (h : u ≠ k) :
    ∀ m : List (String × Bool),
      lookupPairs (m ++ [(k, v)]) u = lookupPairs m u := by
  intro m
  induction m with
  | nil =>
    have : ¬ k = u := fun hh => h hh.symm
    simp [lookupPairs, this]
  | cons p rest ih =>
    by_cases hpu : p.1 = u
    · simp [lookupPairs, hpu]
    · simp [lookupPairs, hpu, ih]

lemma lookup_dictInsert_self (m : List (String × Bool)) (k : String) (v : Bool) :
    lookupPairs (dictInsert m k v) k = some v := by
  rw [dictInsert]
  cases h : m.any (fun p => p.1 = k) with
  | true => simp only [if_pos rfl]; exact lookup_map_update k v m h
  | false =>
    rw [if_neg (by simp [h])]
    exact lookup_append_single k v m h

lemma lookup_dictInsert_other (m : List (String × Bool)) (k : String)
    (v : Bool) (u : String) (h : u ≠ k) :
    lookupPairs (dictInsert m k v) u = lookupPairs m u := by
  rw [dictInsert]
  split
  · exact lookup_map_update_other k v u h m
  · exact lookup_append_single_other k v u h m

lemma keys_dictInsert (m : List (String × Bool)) (k : String) (v : Bool) :
    ∀ p ∈ dictInsert m k v, p.1 = k ∨ ∃ q ∈ m, p.1 = q.1 := by
  intro p hp
  rw [dictInsert] at hp
  split at hp
  · obtain ⟨q, hq, hqe⟩ := List.mem_map.mp hp
    by_cases hqk : q.1 = k
    · rw [if_pos hqk] at hqe; left; rw [← hqe]
    · rw [if_neg hqk] at hqe; right; exact ⟨q, hq, by rw [← hqe]⟩
  · rcases List.mem_append.mp hp with hm | hm
    · exact Or.inr ⟨p, hm, rfl⟩
    · left; simp only [List.mem_singleton] at hm; rw [hm]

lemma lookup_foldl_preserve
    (extract : String → Bool → Except String (Option TranscriptData))
    (index : TranscriptData → Except String Nat) (fr : Bool) :
    ∀ (rest : List String) (acc : List (String × Bool)) (u : String),
      lookupPairs acc u = some (add_video_result extract index u fr) →
      lookupPairs
        (rest.foldl (fun a url =>
          dictInsert a url (add_video_result extract index url fr)) acc) u =
        some (add_video_result extract index u fr) := by
  intro rest
  induction rest with
  | nil => intro acc u h; exact h
  | cons w rest ih =>
    intro acc u h
    simp only [List.foldl]
    apply ih
    by_cases hu : u = w
    · subst hu; exact lookup_dictInsert_self _ _ _
    · rw [lookup_dictInsert_other _ _ _ _ hu]; exact h

lemma lookup_foldl_mem
    (extract : String → Bool → Except String (Option TranscriptData))
    (index : TranscriptData → Except String Nat) (fr : Bool) :
    ∀ (urls : List String) (acc : List (String × Bool)) (u : String),
      u ∈ urls →
      lookupPairs
        (urls.foldl (fun a url =>
          dictInsert a url (add_video_result extract index url fr)) acc) u =
        some (add_video_result extract index u fr) := by
  intro urls
  induction urls with
  | nil => intro acc u h; simp at h
  | cons w rest ih =>
    intro acc u h
    rcases List.mem_cons.mp h with rfl | h
    · simp only [List.foldl]
      exact lookup_foldl_preserve extract index fr rest _ u
        (lookup_dictInsert_self _ _ _)
    · exact ih _ u h

lemma keys_foldl
    (extract : String → Bool → Except String (Option TranscriptData))
    (index : TranscriptData → Except String Nat) (fr : Bool) :
    ∀ (urls : List String) (acc : List (String × Bool))
      (p : String × Bool),
      p ∈ urls.foldl (fun a url =>
        dictInsert a url (add_video_result extract index url fr)) acc →
      (∃ q ∈ acc, p.1 = q.1) ∨ p.1 ∈ urls := by
  intro urls
  induction urls with
  | nil => intro acc p hp; exact Or.inl ⟨p, hp, rfl⟩
  | cons w rest ih =>
    intro acc p hp
    simp only [List.foldl] at hp
    rcases ih _ p hp with ⟨q, hq, hpq⟩ | h
    · rcases keys_dictInsert _ _ _ q hq with hqw | ⟨q', hq', hqq'⟩
      · right; rw [hpq, hqw]; exact List.mem_cons_self _ _
      · exact Or.inl ⟨q', hq', hpq.trans hqq'⟩
    · exact Or.inr (List.mem_cons_of_mem _ h)

lemma pyRange_mem {a b i : Int} (h : i ∈ pyRange a b) : a ≤ i ∧ i < b := by
  rw [pyRange] at h
  obtain ⟨k, hk, hik⟩ := List.mem_map.mp h
  rw [List.mem_range] at hk
  omega

lemma pyRange_sorted (a b : Int) : (pyRange a b).Pairwise (· < ·) := by
  rw [pyRange]
  refine List.pairwise_map.mpr ?_
  refine (List.pairwise_lt_range _).imp ?_
  intro x y h
  omega

lemma getLast?_cons_of_ne_nil {α : Type} (a : α) {l : List α} (h : l ≠ []) :
    (a :: l).getLast? = l.getLast? := by
  cases l with
  | nil => exact absurd rfl h
  | cons b bs => exact List.getLast?_cons_cons

lemma sorted_getLast_max :
    ∀ l : List Int, l.Pairwise (· < ·) →
      ∀ j, l.getLast? = some j → ∀ i ∈ l, i ≤ j := by
  intro l
  induction l with
  | nil => intro _ j hj; simp at hj
  | cons a rest ih =>
    intro hp j hj i hi
    cases rest with
    | nil =>
      simp only [List.getLast?_singleton, Option.some.injEq] at hj
      rcases List.mem_singleton.mp hi with rfl
      omega
    | cons b rs =>
      rw [List.getLast?_cons_cons] at hj
      rw [List.pairwise_cons] at hp
      rcases List.mem_cons.mp hi with rfl | hi
      · have hj' : j ∈ b :: rs := List.mem_of_mem_getLast? (by rw [hj]; rfl)
        exact le_of_lt (hp.1 j hj')
      · exact ih hp.2 j hj i hi

lemma lastMarker_foldl (text : List Char) :
    ∀ (l : List Int) (e : Int),
      l.foldl (fun best i => if markerAt text i then i + 2 else best) e =
        match (l.filter (fun i => markerAt text i)).getLast? with
        | none => e
        | some j => j + 2 := by
  intro l
  induction l with
  | nil => intro e; rfl
  | cons i rest ih =>
    intro e
    rw [List.foldl_cons, List.filter_cons]
    by_cases h : markerAt text i = true
    · simp only [h, if_true, ih]
      cases hr : (rest.filter (fun i => markerAt text i)).getLast? with
      | none =>
        have h0 : rest.filter (fun i => markerAt text i) = [] :=
          List.getLast?_eq_none_iff.mp hr
        rw [h0]
        simp [List.getLast?_singleton]
      | some j =>
        have hne : rest.filter (fun i => markerAt text i) ≠ [] := by
          intro hh; rw [hh] at hr; simp at hr
        rw [getLast?_cons_of_ne_nil i hne, hr]
    · simp only [h, if_false, ih]
      simp only [Bool.false_eq_true, if_false]

lemma sentenceBreak_cases (text : List Char) (e0 : Int) :
    sentenceBreak text e0 = e0 ∨
      ∃ i, max 0 (e0 - 100) ≤ i ∧ i < e0 ∧ markerAt text i = true ∧
        sentenceBreak text e0 = i + 2 := by
  rw [sentenceBreak, lastMarker_foldl]
  cases hr : ((pyRange (max 0 (e0 - 100)) e0).filter
      (fun i => markerAt text i)).getLast? with
  | none => left; rfl
  | some j =>
    right
    have hj : j ∈ (pyRange (max 0 (e0 - 100)) e0).filter
        (fun i => markerAt text i) :=
      List.mem_of_mem_getLast? (by rw [hr]; rfl)
    rw [List.mem_filter] at hj
    have hb := pyRange_mem hj.1
    exact ⟨j, hb.1, hb.2, hj.2, rfl⟩

/-- CLAIM C2 — Chunker boundary selection: when the tentative end
`start + chunkSize` is below the text length, the end used for the chunk
is moved to two past the start of the *last* sentence-boundary marker
found scanning the 100-position window `[max(0, end-100), end)` left to
right (i.e. the marker closest to the original end, which is the
maximum matching position), and stays at `start + chunkSize` when no
marker occurs in the window or when the tentative end is not below the
text length. -/
theorem chunk_boundary_selection (text : List Char) (cs start : Int) :
    (start + cs < (text.length : Int) →
      ((pyRange (max 0 (start + cs - 100)) (start + cs)).filter
          (fun i => markerAt text i) = [] →
        stepEnd text cs start = start + cs)
      ∧ ∀ j, ((pyRange (max 0 (start + cs - 100)) (start + cs)).filter
            (fun i => markerAt text i)).getLast? = some j →
          stepEnd text cs start = j + 2 ∧ markerAt text j = true
          ∧ ∀ i ∈ pyRange (max 0 (start + cs - 100)) (start + cs),
              markerAt text i = true → i ≤ j)
    ∧ (¬ start + cs < (text.length : Int) →
        stepEnd text cs start = start + cs) := by
  constructor
  · intro hlt
    have hstep : stepEnd text cs start = sentenceBreak text (start + cs) := by
      rw [stepEnd, if_pos hlt]
    constructor
    · intro hW
      rw [hstep, sentenceBreak, lastMarker_foldl, hW]
      rfl
    · intro j hj
      refine ⟨?_, ?_, ?_⟩
      · rw [hstep, sentenceBreak, lastMarker_foldl, hj]
      · have hj' : j ∈ (pyRange (max 0 (start + cs - 100)) (start + cs)).filter
            (fun i => markerAt text i) :=
          List.mem_of_mem_getLast? (by rw [hj]; rfl)
        exact (List.mem_filter.mp hj').2
      · intro i hi hm
        exact sorted_getLast_max _
          (List.Pairwise.filter _ (pyRange_sorted _ _)) j hj i
          (List.mem_filter.mpr ⟨hi, hm⟩)
  · intro hge
    rw [stepEnd, if_neg hge]

/-- Witness for `chunk_boundary_selection`: in "a. b" with tentative end 3
the marker ". " at position 1 is found and the end moves to 3 = 1 + 2. -/
theorem chunk_boundary_selection_witness :
    stepEnd "a. b".toList 3 0 = 1 + 2
    ∧ markerAt "a. b".toList 1 = true
    ∧ ∀ i ∈ pyRange (max 0 (0 + 3 - 100)) (0 + 3),
        markerAt "a. b".toList i = true → i ≤ 1 :=
  ((chunk_boundary_selection "a. b".toList 3 0).1 (by decide)).2 1 (by decide)

lemma chunkLoopA :
    ∀ (fuel : Nat) (acc : List (List Char)),
      chunkLoop aText 100 100 fuel 0 acc = none := by
  intro fuel
  induction fuel with
  | zero => intro acc; rfl
  | succ f ih =>
    intro acc
    have hsb : stepEnd aText 100 0 = 100 := by decide
    rw [chunkLoop]
    rw [if_pos (by decide : (0 : Int) < (aText.length : Int))]
    rw [if_neg (show ¬ (aText.length : Int) ≤ stepEnd aText 100 0 - 100 by decide)]
    have h0 : stepEnd aText 100 0 - 100 = 0 := by rw [hsb]; norm_num
    rw [h0]
    exact ih _

/-- CLAIM C3 — the chunker does NOT terminate on every configuration:
with `chunk_size = 100 = overlap` (a configuration the code does not
reject) on a 150-character boundary-free text, every iteration sets
`start = end - overlap = 0` again, so the loop never finishes no matter
how much fuel it is given.  This contradicts the claimed guarantee that
`end > start` is required before advancing and that `overlap ≥ chunkSize`
is rejected — the source contains neither check. -/
theorem chunk_nontermination :
    ∀ fuel : Nat, chunk_text aText 100 100 fuel = none := by
  intro fuel
  rw [chunk_text, if_neg (by decide : ¬ (aText.length : Int) ≤ 100)]
  exact chunkLoopA fuel []

/-- CLAIM C9 — `add_video` never raises (the `try/except` converts every
failure to `False`, so it always evaluates to a boolean), and
`add_videos` never raises, maps every input url to that boolean, and
introduces no key that was not an input url, so one url's failure is
isolated from the rest of the batch. -/
theorem add_video_total
    (extract : String → Bool → Except String (Option TranscriptData))
    (index : TranscriptData → Except String Nat) (fr : Bool)
    (urls : List String) :
    (∀ url, add_video extract index url fr =
        Except.ok (add_video_result extract index url fr))
    ∧ add_videos extract index urls fr =
        Except.ok (add_videos_pure extract index urls fr)
    ∧ (∀ u ∈ urls, lookupPairs (add_videos_pure extract index urls fr) u =
        some (add_video_result extract index u fr))
    ∧ ∀ p ∈ add_videos_pure extract index urls fr, p.1 ∈ urls := by
  refine ⟨fun url => add_video_eq_ok extract index url fr,
    add_videos_foldlM extract index fr urls [],
    fun u hu => lookup_foldl_mem extract index fr urls [] u hu,
    fun p hp => ?_⟩
  rcases keys_foldl extract index fr urls [] p hp with ⟨q, hq, _⟩ | h
  · simp at hq
  · exact h

/-- Witness for `add_video_total`: a batch with one good and one bad url
returns normally with the bad url isolated as a `False` entry. -/
theorem add_video_total_witness :
    add_videos ex0 ix0 ["g", "b"] false =
      Except.ok (add_videos_pure ex0 ix0 ["g", "b"] false)
    ∧ lookupPairs (add_videos_pure ex0 ix0 ["g", "b"] false) "b" =
        some (add_video_result ex0 ix0 "b" false)
    ∧ add_videos_pure ex0 ix0 ["g", "b"] false = [("g", true), ("b", false)] :=
  ⟨(add_video_total ex0 ix0 false ["g", "b"]).2.1,
   (add_video_total ex0 ix0 false ["g", "b"]).2.2.1 "b" (by decide),
   by decide⟩

lemma pyIdx_le (n : Nat) (i : Int) : pyIdx n i ≤ n := by
  rw [pyIdx]; split_ifs <;> omega

lemma pyIdx_int (n : Nat) (i : Int) :
    (pyIdx n i : Int) =
      if i < 0 then max 0 ((n : Int) + i) else min i (n : Int) := by
  rw [pyIdx]; split_ifs <;> omega

lemma length_pySlice {α : Type} (l : List α) (a b : Int) :
    (pySlice l a b).length = pyIdx l.length b - pyIdx l.length a := by
  rw [pySlice, List.length_drop, List.length_take,
    min_eq_left (pyIdx_le l.length b)]

lemma dropWhile_length_le (p : Char → Bool) :
    ∀ l : List Char, (l.dropWhile p).length ≤ l.length := by
  intro l
  induction l with
  | nil => simp
  | cons a t ih =>
    rw [List.dropWhile_cons]
    split
    · exact le_trans ih (by simp)
    · simp

lemma pyStrip_length_le (l : List Char) : (pyStrip l).length ≤ l.length := by
  rw [pyStrip, List.length_reverse]
  calc ((l.dropWhile isPyWs).reverse.dropWhile isPyWs).length
      ≤ (l.dropWhile isPyWs).reverse.length := dropWhile_length_le _ _
    _ = (l.dropWhile isPyWs).length := List.length_reverse _
    _ ≤ l.length := dropWhile_length_le _ _

lemma dropWhile_ne_nil_getLast? (p : Char → Bool) :
    ∀ l : List Char, l.dropWhile p ≠ [] →
      (l.dropWhile p).getLast? = l.getLast? := by
  intro l
  induction l with
  | nil => intro h; exact absurd rfl h
  | cons a t ih =>
    intro h
    rw [List.dropWhile_cons] at h ⊢
    by_cases hp : p a = true
    · rw [if_pos hp] at h ⊢
      rw [ih h]
      have ht : t ≠ [] := by
        intro he; rw [he] at h; exact h rfl
      exact (getLast?_cons_of_ne_nil a ht).symm
    · rw [if_neg hp]

lemma pyStrip_lt_of_last_ws {l : List Char} {w : Char}
    (hl : l.getLast? = some w) (hw : isPyWs w = true) :
    (pyStrip l).length < l.length := by
  have hlne : l ≠ [] := by intro h; rw [h] at hl; simp at hl
  have hlpos : 0 < l.length := List.length_pos.mpr hlne
  rw [pyStrip, List.length_reverse]
  by_cases hdn : l.dropWhile isPyWs = []
  · rw [hdn]
    simpa using hlpos
  · have hdl : (l.dropWhile isPyWs).getLast? = l.getLast? :=
      dropWhile_ne_nil_getLast? isPyWs l hdn
    have hh : (l.dropWhile isPyWs).reverse.head? = some w := by
      rw [List.head?_reverse, hdl, hl]
    obtain ⟨t, ht⟩ : ∃ t, (l.dropWhile isPyWs).reverse = w :: t := by
      cases hrev : (l.dropWhile isPyWs).reverse with
      | nil => rw [hrev] at hh; simp at hh
      | cons c cs =>
        rw [hrev] at hh
        simp only [List.head?_cons, Option.some.injEq] at hh
        exact ⟨cs, by rw [hh]⟩
    rw [ht, List.dropWhile_cons, if_pos hw]
    have h1 : (t.dropWhile isPyWs).length ≤ t.length := dropWhile_length_le _ _
    have h2 : (l.dropWhile isPyWs).reverse.length = t.length + 1 := by
      rw [ht]; rfl
    rw [List.length_reverse] at h2
    have h3 : (l.dropWhile isPyWs).length ≤ l.length := dropWhile_length_le _ _
    omega

lemma getLast?_drop {α : Type} :
    ∀ (l : List α) (k : Nat), k < l.length →
      (l.drop k).getLast? = l.getLast? := by
  intro l
  induction l with
  | nil => intro k h; simp at h
  | cons a t ih =>
    intro k h
    cases k with
    | zero => rfl
    | succ k =>
      rw [List.drop_succ_cons]
      rw [List.length_cons] at h
      have hk : k < t.length := by omega
      rw [ih k hk]
      have ht : t ≠ [] := by intro he; rw [he] at hk; simp at hk
      exact (getLast?_cons_of_ne_nil a ht).symm

lemma getLast?_take {α : Type} :
    ∀ (l : List α) (b : Nat), 0 < b → b ≤ l.length →
      (l.take b).getLast? = l[b - 1]? := by
  intro l
  induction l with
  | nil => intro b h1 h2; simp at h2; omega
  | cons a t ih =>
    intro b h1 h2
    cases b with
    | zero => omega
    | succ k =>
      cases k with
      | zero => simp
      | succ k2 =>
        rw [List.take_succ_cons]
        have htlen : k2 + 1 ≤ t.length := by
          rw [List.length_cons] at h2; omega
        have hne : t.take (k2 + 1) ≠ [] := by
          intro he
          have hlt : (t.take (k2 + 1)).length = (k2 + 1) ⊓ t.length :=
            List.length_take _ _
          rw [he] at hlt
          simp at hlt
          omega
        rw [getLast?_cons_of_ne_nil a hne, ih (k2 + 1) (by omega) htlen]
        simp only [Nat.succ_sub_one, List.getElem?_cons_succ]

lemma pySlice_getLast? (text : List Char) (a b : Int)
    (h : pySlice text a b ≠ []) :
    (pySlice text a b).getLast? = text[pyIdx text.length b - 1]? := by
  have hlen := length_pySlice text a b
  have hpos : 0 < (pySlice text a b).length := List.length_pos.mpr h
  have hab : pyIdx text.length a < pyIdx text.length b := by omega
  have htake : (text.take (pyIdx text.length b)).length = pyIdx text.length b := by
    rw [List.length_take]
    exact min_eq_left (pyIdx_le _ _)
  rw [pySlice, getLast?_drop _ _ (by rw [htake]; exact hab)]
  exact getLast?_take text (pyIdx text.length b) (by omega) (pyIdx_le _ _)

lemma sentEndings_last_ws :
    ∀ m ∈ sentEndings, m.length = 2 ∧
      ∃ w, m.getLast? = some w ∧ isPyWs w = true := by decide

lemma markerAt_spec (text : List Char) (i : Int) (hi : 0 ≤ i)
    (h : markerAt text i = true) :
    (i + 2).toNat ≤ text.length
    ∧ pyIdx text.length (i + 2) = (i + 2).toNat
    ∧ ∃ w, text[(i + 2).toNat - 1]? = some w ∧ isPyWs w = true := by
  rw [markerAt, List.any_eq_true] at h
  obtain ⟨m, hm, hslice⟩ := h
  have hsl : pySlice text i (i + 2) = m := of_decide_eq_true hslice
  obtain ⟨hm2, w, hwl, hww⟩ := sentEndings_last_ws m hm
  have hlen : (pySlice text i (i + 2)).length = 2 := by rw [hsl, hm2]
  rw [length_pySlice] at hlen
  have hia := pyIdx_int text.length i
  have hib := pyIdx_int text.length (i + 2)
  rw [if_neg (by omega : ¬ i < 0)] at hia
  rw [if_neg (by omega : ¬ i + 2 < 0)] at hib
  have h1 : (i + 2).toNat ≤ text.length := by omega
  have h2 : pyIdx text.length (i + 2) = (i + 2).toNat := by omega
  refine ⟨h1, h2, w, ?_, hww⟩
  have hne : pySlice text i (i + 2) ≠ [] := by
    rw [hsl]; intro he; rw [he] at hm2; simp at hm2
  have hgl := pySlice_getLast? text i (i + 2) hne
  rw [hsl, h2] at hgl
  exact hgl.symm.trans hwl

lemma stripped_len_le (text : List Char) (cs start : Int)
    (hcs : 0 ≤ cs) (hn : cs < (text.length : Int))
    (hs : start < (text.length : Int)) :
    ((pyStrip (pySlice text start (stepEnd text cs start))).length : Int) ≤ cs := by
  rw [stepEnd]
  by_cases hlt : start + cs < (text.length : Int)
  · rw [if_pos hlt]
    rcases sentenceBreak_cases text (start + cs) with hsb | ⟨i, hiw, hie, him, hsb⟩
    · rw [hsb]
      have hlen := length_pySlice text start (start + cs)
      have h1 := pyStrip_length_le (pySlice text start (start + cs))
      have hia := pyIdx_int text.length start
      have hib := pyIdx_int text.length (start + cs)
      split_ifs at hia hib <;> omega
    · rw [hsb]
      by_cases hraw : pySlice text start (i + 2) = []
      · rw [hraw]
        have : pyStrip [] = [] := rfl
        rw [this]
        simpa using hcs
      · have hi0 : 0 ≤ i := le_trans (le_max_left _ _) hiw
        obtain ⟨hle, hpyb, w, hwsome, hww⟩ := markerAt_spec text i hi0 him
        have hlast := pySlice_getLast? text start (i + 2) hraw
        rw [hpyb] at hlast
        have hlw : (pySlice text start (i + 2)).getLast? = some w :=
          hlast.trans hwsome
        have hlt2 := pyStrip_lt_of_last_ws hlw hww
        have hlen := length_pySlice text start (i + 2)
        have hia := pyIdx_int text.length start
        have hib := pyIdx_int text.length (i + 2)
        split_ifs at hia hib <;> omega
  · rw [if_neg hlt]
    have hlen := length_pySlice text start (start + cs)
    have h1 := pyStrip_length_le (pySlice text start (start + cs))
    have hia := pyIdx_int text.length start
    have hib := pyIdx_int text.length (start + cs)
    split_ifs at hia hib <;> omega

lemma chunkLoop_shape (text : List Char) (cs ov : Int)
    (hcs : 0 ≤ cs) (hn : cs < (text.length : Int)) :
    ∀ (fuel : Nat) (start : Int) (acc out : List (List Char)),
      (∀ c ∈ acc, c ≠ [] ∧ (c.length : Int) ≤ cs) →
      chunkLoop text cs ov fuel start acc = some out →
      ∀ c ∈ out, c ≠ [] ∧ (c.length : Int) ≤ cs := by
  intro fuel
  induction fuel with
  | zero =>
    intro start acc out hacc h
    exact absurd h (by rw [chunkLoop]; simp)
  | succ f ih =>
    intro start acc out hacc h
    rw [chunkLoop] at h
    by_cases hs : start < (text.length : Int)
    · rw [if_pos hs] at h
      have hemit : ∀ c ∈ chunkEmit text cs start acc,
          c ≠ [] ∧ (c.length : Int) ≤ cs := by
        intro c hc
        rw [chunkEmit] at hc
        split at hc
        · exact hacc c hc
        · rcases List.mem_append.mp hc with hc | hc
          · exact hacc c hc
          · rcases List.mem_singleton.mp hc with rfl
            refine ⟨by assumption, stripped_len_le text cs start hcs hn hs⟩
      by_cases hstop : (text.length : Int) ≤ stepEnd text cs start - ov
      · rw [if_pos hstop] at h
        have h' : chunkEmit text cs start acc = out := Option.some.inj h
        intro c hc
        exact hemit c (h'.symm ▸ hc)
      · rw [if_neg hstop] at h
        exact ih _ _ out hemit h
    · rw [if_neg hs] at h
      have h' : acc = out := Option.some.inj h
      intro c hc
      exact hacc c (h'.symm ▸ hc)

/-- CLAIM C4 (amended) — Chunk output shape: for every NON-EMPTY input
text and non-negative chunk size, every string in any terminating run of
`chunk_text` is non-empty and at most `chunkSize` characters long.  (The
original claim included the empty text, where the single-chunk branch
returns the empty string unchanged — see the counterexample.) -/
theorem chunk_shape (text : List Char) (cs ov : Int) (fuel : Nat)
    (out : List (List Char)) (htext : text ≠ []) (hcs : 0 ≤ cs)
    (h : chunk_text text cs ov fuel = some out) :
    ∀ c ∈ out, c ≠ [] ∧ (c.length : Int) ≤ cs := by
  rw [chunk_text] at h
  by_cases hle : (text.length : Int) ≤ cs
  · rw [if_pos hle] at h
    have h' : [text] = out := Option.some.inj h
    intro c hc
    rcases List.mem_singleton.mp (h'.symm ▸ hc) with rfl
    exact ⟨htext, by simpa using hle⟩
  · rw [if_neg hle] at h
    exact chunkLoop_shape text cs ov hcs (by omega) fuel 0 [] out (by simp) h

/-- CLAIM C4 counterexample: `chunk_text` on the empty text returns the
one-element list containing the empty string, so "every string in the
returned sequence is non-empty" fails for the empty input text. -/
theorem chunk_shape_counterexample :
    chunk_text [] 1000 200 1 = some [[]]
    ∧ ¬ (∀ c ∈ [([] : List Char)], c ≠ [] ∧ (c.length : Int) ≤ 1000) := by
  refine ⟨rfl, fun h => ?_⟩
  exact (h [] (List.mem_singleton.mpr rfl)).1 rfl

/-- Witness for `chunk_shape` on a three-chunk run, instantiated at the
second chunk. -/
theorem chunk_shape_witness :
    ". cd!".toList ≠ [] ∧ ((". cd!".toList).length : Int) ≤ 6 :=
  chunk_shape "ab. cd! ef".toList 6 2 9
    ["ab.".toList, ". cd!".toList, "! ef".toList]
    (by decide) (by decide) (by decide) ". cd!".toList (by decide)

lemma remove_video_no_v (coll : List Entry) (v : String) :
    ∀ e ∈ (remove_video coll v).1, ¬ e.meta.video_id = v := by
  intro e he hv
  simp only [remove_video] at he
  by_cases hids : (coll.filter (fun e => decide (e.meta.video_id = v))).map
      (fun e => e.id) = []
  · rw [if_pos hids] at he
    have hf := List.map_eq_nil_iff.mp hids
    have := List.filter_eq_nil_iff.mp hf e he
    simp [hv] at this
  · rw [if_neg hids] at he
    have hmem := List.mem_filter.mp he
    have hid : e.id ∈ (coll.filter (fun e => decide (e.meta.video_id = v))).map
        (fun e => e.id) :=
      List.mem_map.mpr ⟨e, List.mem_filter.mpr ⟨hmem.1, by simp [hv]⟩, rfl⟩
    have hnot := hmem.2
    simp only [decide_eq_true_eq] at hnot
    exact hnot hid

lemma remove_video_sub (coll : List Entry) (v : String) :
    ∀ e ∈ (remove_video coll v).1, e ∈ coll := by
  intro e he
  simp only [remove_video] at he
  by_cases hids : (coll.filter (fun e => decide (e.meta.video_id = v))).map
      (fun e => e.id) = []
  · rw [if_pos hids] at he
    exact he
  · rw [if_neg hids] at he
    exact (List.mem_filter.mp he).1

lemma add_transcript_ok
    (embed : List (List Char) → Option (List (List ℚ)))
    (coll : List Entry) (video_id : String) (metadata : VMeta)
    (transcript : List Char) (segments : List Seg) (cs ov : Int) (fuel : Nat)
    (coll' : List Entry) (n : Nat)
    (h : add_transcript embed coll video_id metadata transcript segments
        cs ov fuel = some (coll', Except.ok n)) :
    ∃ chunks, chunk_text transcript cs ov fuel = some chunks
      ∧ chunks ≠ []
      ∧ n = chunks.length
      ∧ coll' = (remove_video coll video_id).1
          ++ buildEntries video_id metadata chunks segments := by
  rw [add_transcript] at h
  split at h
  · simp at h
  · rename_i chunks hct
    split at h
    · simp at h
    · split at h
      · simp at h
      · rename_i hne
        simp only [Option.some.injEq, Prod.mk.injEq, Except.ok.injEq] at h
        exact ⟨chunks, hct, hne, h.2.symm, h.1.symm⟩

/-- CLAIM C8 — Failed re-index equals removal: when embedding raises
inside `add_transcript`, the collection is left exactly at the
post-delete state — no entries for the video remain, nothing new was
inserted (every surviving entry was already present), so the net effect
is removal of the video. -/
theorem failed_reindex_removal
    (embed : List (List Char) → Option (List (List ℚ)))
    (coll : List Entry) (video_id : String) (metadata : VMeta)
    (transcript : List Char) (segments : List Seg) (cs ov : Int) (fuel : Nat)
    (coll' : List Entry)
    (h : add_transcript embed coll video_id metadata transcript segments
        cs ov fuel = some (coll', Except.error ())) :
    coll' = (remove_video coll video_id).1
    ∧ coll'.countP (fun e => e.meta.video_id = video_id) = 0
    ∧ ∀ e ∈ coll', e ∈ coll := by
  have hc : coll' = (remove_video coll video_id).1 := by
    rw [add_transcript] at h
    split at h
    · simp at h
    · split at h
      · simp only [Option.some.injEq, Prod.mk.injEq] at h
        exact h.1.symm
      · split at h
        · simp only [Option.some.injEq, Prod.mk.injEq] at h
          exact h.1.symm
        · simp at h
  refine ⟨hc, ?_, ?_⟩
  · rw [hc, List.countP_eq_length_filter,
      List.filter_eq_nil_iff.mpr (fun e he => by
        simpa using remove_video_no_v coll video_id e he)]
    rfl
  · rw [hc]; exact remove_video_sub coll video_id

/-- Witness for `failed_reindex_removal`: one indexed video, embedding
raises on re-index, collection ends empty. -/
theorem failed_reindex_removal_witness :
    add_transcript embedFail [mkEntry "v" vm0 [] (0, ['a', 'b'])] "v" vm0
      ['a', 'b'] [] 10 2 1 = some ([], Except.error ())
    ∧ ([] : List Entry).countP (fun e => e.meta.video_id = "v") = 0 :=
  ⟨by rfl,
   (failed_reindex_removal embedFail [mkEntry "v" vm0 [] (0, ['a', 'b'])]
     "v" vm0 ['a', 'b'] [] 10 2 1 [] (by rfl)).2.1⟩

lemma foldl_min_le_init :
    ∀ (xs : List ℚ) (init : ℚ), xs.foldl min init ≤ init := by
  intro xs
  induction xs with
  | nil => intro init; simp
  | cons a t ih =>
    intro init
    rw [List.foldl_cons]
    exact le_trans (ih _) (min_le_left _ _)

lemma foldl_min_le_mem :
    ∀ (xs : List ℚ) (init x : ℚ), x ∈ xs → xs.foldl min init ≤ x := by
  intro xs
  induction xs with
  | nil => intro init x hx; simp at hx
  | cons a t ih =>
    intro init x hx
    rw [List.foldl_cons]
    rcases List.mem_cons.mp hx with rfl | hx
    · exact le_trans (foldl_min_le_init t _) (min_le_right _ _)
    · exact ih _ x hx

lemma foldl_min_mem :
    ∀ (xs : List ℚ) (init : ℚ),
      xs.foldl min init = init ∨ xs.foldl min init ∈ xs := by
  intro xs
  induction xs with
  | nil => intro init; exact Or.inl rfl
  | cons a t ih =>
    intro init
    rw [List.foldl_cons]
    rcases ih (min init a) with h | h
    · rw [h]
      rcases le_total init a with hle | hle
      · exact Or.inl (min_eq_left hle)
      · right; rw [min_eq_right hle]; exact List.mem_cons_self _ _
    · exact Or.inr (List.mem_cons_of_mem _ h)

lemma foldl_max_init_le :
    ∀ (xs : List ℚ) (init : ℚ), init ≤ xs.foldl max init := by
  intro xs
  induction xs with
  | nil => intro init; simp
  | cons a t ih =>
    intro init
    rw [List.foldl_cons]
    exact le_trans (le_max_left _ _) (ih _)

lemma foldl_max_mem_le :
    ∀ (xs : List ℚ) (init x : ℚ), x ∈ xs → x ≤ xs.foldl max init := by
  intro xs
  induction xs with
  | nil => intro init x hx; simp at hx
  | cons a t ih =>
    intro init x hx
    rw [List.foldl_cons]
    rcases List.mem_cons.mp hx with rfl | hx
    · exact le_trans (le_max_right _ _) (foldl_max_init_le t _)
    · exact ih _ x hx

lemma foldl_max_mem :
    ∀ (xs : List ℚ) (init : ℚ),
      xs.foldl max init = init ∨ xs.foldl max init ∈ xs := by
  intro xs
  induction xs with
  | nil => intro init; exact Or.inl rfl
  | cons a t ih =>
    intro init
    rw [List.foldl_cons]
    rcases ih (max init a) with h | h
    · rw [h]
      rcases le_total init a with hle | hle
      · right; rw [max_eq_right hle]; exact List.mem_cons_self _ _
      · exact Or.inl (max_eq_left hle)
    · exact Or.inr (List.mem_cons_of_mem _ h)

lemma mkEntry_document (v : String) (m : VMeta) (segs : List Seg)
    (p : Nat × List Char) : (mkEntry v m segs p).document = p.2 := rfl

lemma mkEntry_video_id (v : String) (m : VMeta) (segs : List Seg)
    (p : Nat × List Char) : (mkEntry v m segs p).meta.video_id = v := rfl

lemma mkEntry_times_def (v : String) (m : VMeta) (segs : List Seg)
    (p : Nat × List Char) :
    (mkEntry v m segs p).meta.times =
      match find_segments_for_chunk p.2 segs with
      | [] => none
      | s :: rest =>
        some ((rest.map (·.start)).foldl min s.start,
          (rest.map (fun t => t.start + t.duration)).foldl max
            (s.start + s.duration)) := rfl

/-- CLAIM C6 — Timestamp metadata: in every entry produced by
`add_transcript`, the optional `start_time`/`end_time` pair is present
iff at least one transcript segment matched the chunk (per the
segment-mapper rule); when present, `start_time` is the minimum `start`
over the matched segments and `end_time` the maximum `start + duration`
(each attained by some matched segment and bounding all of them). -/
theorem timestamp_metadata
    (embed : List (List Char) → Option (List (List ℚ)))
    (coll : List Entry) (video_id : String) (metadata : VMeta)
    (transcript : List Char) (segments : List Seg) (cs ov : Int) (fuel : Nat)
    (coll' : List Entry) (n : Nat)
    (h : add_transcript embed coll video_id metadata transcript segments
        cs ov fuel = some (coll', Except.ok n)) :
    ∀ e ∈ coll', e.meta.video_id = video_id →
      ((e.meta.times.isSome = true ↔
          find_segments_for_chunk e.document segments ≠ [])
      ∧ ∀ a b, e.meta.times = some (a, b) →
          ((∃ s ∈ find_segments_for_chunk e.document segments, a = s.start)
          ∧ (∀ s ∈ find_segments_for_chunk e.document segments, a ≤ s.start)
          ∧ (∃ s ∈ find_segments_for_chunk e.document segments,
              b = s.start + s.duration)
          ∧ ∀ s ∈ find_segments_for_chunk e.document segments,
              s.start + s.duration ≤ b)) := by
  obtain ⟨chunks, hct, hne, hn, hco⟩ := add_transcript_ok embed coll video_id
    metadata transcript segments cs ov fuel coll' n h
  intro e he hvid
  rw [hco] at he
  rcases List.mem_append.mp he with he1 | he2
  · exact absurd hvid (remove_video_no_v coll video_id e he1)
  · obtain ⟨p, hp, rfl⟩ := List.mem_map.mp he2
    rw [mkEntry_document, mkEntry_times_def]
    cases hfs : find_segments_for_chunk p.2 segments with
    | nil =>
      constructor
      · simp
      · intro a b hab; simp at hab
    | cons s rest =>
      constructor
      · simp
      · intro a b hab
        simp only [Option.some.injEq, Prod.mk.injEq] at hab
        obtain ⟨ha, hb⟩ := hab
        refine ⟨?_, ?_, ?_, ?_⟩
        · rcases foldl_min_mem (rest.map (·.start)) s.start with hm | hm
          · exact ⟨s, List.mem_cons_self _ _, by rw [← ha, hm]⟩
          · obtain ⟨t, ht, hts⟩ := List.mem_map.mp hm
            exact ⟨t, List.mem_cons_of_mem _ ht, by rw [← ha]; exact hts.symm⟩
        · intro t ht
          rcases List.mem_cons.mp ht with rfl | ht
          · rw [← ha]; exact foldl_min_le_init _ _
          · rw [← ha]
            exact foldl_min_le_mem _ _ _ (List.mem_map.mpr ⟨t, ht, rfl⟩)
        · rcases foldl_max_mem
              (rest.map (fun t => t.start + t.duration))
              (s.start + s.duration) with hm | hm
          · exact ⟨s, List.mem_cons_self _ _, by rw [← hb, hm]⟩
          · obtain ⟨t, ht, hts⟩ := List.mem_map.mp hm
            exact ⟨t, List.mem_cons_of_mem _ ht, by rw [← hb]; exact hts.symm⟩
        · intro t ht
          rcases List.mem_cons.mp ht with rfl | ht
          · rw [← hb]; exact foldl_max_init_le _ _
          · rw [← hb]
            exact foldl_max_mem_le _ _ _ (List.mem_map.mpr ⟨t, ht, rfl⟩)

/-- Witness for `timestamp_metadata` on a one-chunk, one-segment index
whose segment matches: the stored bounds are `(0, 2)`. -/
theorem timestamp_metadata_witness :
    (mkEntry "v" vm0 [seg0] (0, ['a', 'b'])).meta.times = some (0, 2)
    ∧ ((mkEntry "v" vm0 [seg0] (0, ['a', 'b'])).meta.times.isSome = true ↔
        find_segments_for_chunk
          (mkEntry "v" vm0 [seg0] (0, ['a', 'b'])).document [seg0] ≠ []) :=
  ⟨by
     have hred : (mkEntry "v" vm0 [seg0] (0, ['a', 'b'])).meta.times
         = some (seg0.start, seg0.start + seg0.duration) := rfl
     rw [hred]
     norm_num [seg0],
   (timestamp_metadata embedOk [] "v" vm0 ['a', 'b'] [seg0] 10 2 1
      [mkEntry "v" vm0 [seg0] (0, ['a', 'b'])] 1 (by rfl)
      (mkEntry "v" vm0 [seg0] (0, ['a', 'b']))
      (List.mem_singleton.mpr rfl) (by rfl)).1⟩

lemma enumFrom_map_fst {α β : Type} (f : Nat → β) :
    ∀ (l : List α) (k : Nat),
      (List.enumFrom k l).map (fun p => f p.1) =
        (List.range' k l.length).map f := by
  intro l
  induction l with
  | nil => intro k; rfl
  | cons a t ih =>
    intro k
    simp only [List.enumFrom, List.map_cons, List.length_cons, List.range']
    rw [ih (k + 1)]

lemma enumFrom_map_snd {α β : Type} (g : α → β) :
    ∀ (l : List α) (k : Nat),
      (List.enumFrom k l).map (fun p => g p.2) = l.map g := by
  intro l
  induction l with
  | nil => intro k; rfl
  | cons a t ih =>
    intro k
    simp only [List.enumFrom, List.map_cons]
    rw [ih (k + 1)]

lemma buildEntries_map_id (v : String) (m : VMeta) (chunks : List (List Char))
    (segs : List Seg) :
    (buildEntries v m chunks segs).map (fun e => e.id) =
      (List.range chunks.length).map (fun i => v ++ "_" ++ Nat.repr i) := by
  rw [buildEntries, List.map_map, List.range_eq_range']
  exact enumFrom_map_fst (fun i => v ++ "_" ++ Nat.repr i) chunks 0

lemma buildEntries_map_idx (v : String) (m : VMeta) (chunks : List (List Char))
    (segs : List Seg) :
    (buildEntries v m chunks segs).map (fun e => e.meta.chunk_index) =
      List.range chunks.length := by
  rw [buildEntries, List.map_map, List.range_eq_range']
  have h := enumFrom_map_fst (fun i : Nat => i) chunks 0
  rw [List.map_id'] at h
  exact h

lemma buildEntries_map_doc (v : String) (m : VMeta) (chunks : List (List Char))
    (segs : List Seg) :
    (buildEntries v m chunks segs).map (fun e => e.document) = chunks := by
  rw [buildEntries, List.map_map]
  have h := enumFrom_map_snd (fun c : List Char => c) chunks 0
  rw [List.map_id'] at h
  exact h

lemma buildEntries_vid (v : String) (m : VMeta) (chunks : List (List Char))
    (segs : List Seg) :
    ∀ e ∈ buildEntries v m chunks segs, e.meta.video_id = v := by
  intro e he
  obtain ⟨p, _, rfl⟩ := List.mem_map.mp he
  rfl

lemma buildEntries_length (v : String) (m : VMeta) (chunks : List (List Char))
    (segs : List Seg) :
    (buildEntries v m chunks segs).length = chunks.length := by
  rw [buildEntries, List.length_map, List.enum_length]

lemma countP_map_bump (u : String) (m : Meta) :
    ∀ acc : List VideoRec,
      ((acc.map (fun r =>
        if r.video_id = m.video_id then { r with chunks := r.chunks + 1 }
        else r)).countP (fun r => r.video_id = u)) =
      acc.countP (fun r => r.video_id = u) := by
  intro acc
  induction acc with
  | nil => rfl
  | cons r rest ih =>
    by_cases hr : r.video_id = m.video_id
    · simp only [List.map_cons, if_pos hr, List.countP_cons, ih]
    · simp only [List.map_cons, if_neg hr, List.countP_cons, ih]

lemma wchunks_cons (u : String) (r : VideoRec) (rest : List VideoRec) :
    wchunks u (r :: rest) =
      (if r.video_id = u then r.chunks else 0) + wchunks u rest := by
  rw [wchunks, wchunks, List.map_cons, List.sum_cons]

lemma wchunks_map_bump_match (u : String) (m : Meta) (hm : m.video_id = u) :
    ∀ acc : List VideoRec,
      wchunks u (acc.map (fun r =>
        if r.video_id = m.video_id then { r with chunks := r.chunks + 1 }
        else r)) =
      wchunks u acc + acc.countP (fun r => r.video_id = u) := by
  intro acc
  induction acc with
  | nil => rfl
  | cons r rest ih =>
    simp only [List.map_cons, wchunks_cons, List.countP_cons, ih]
    by_cases hru : r.video_id = u
    · have hr : r.video_id = m.video_id := by rw [hru, hm]
      rw [if_pos hr]
      have hp1 : ({ r with chunks := r.chunks + 1 } : VideoRec).video_id
          = r.video_id := rfl
      have hp2 : ({ r with chunks := r.chunks + 1 } : VideoRec).chunks
          = r.chunks + 1 := rfl
      rw [hp1, hp2]
      simp [hru]
      omega
    · have hr' : ¬ r.video_id = m.video_id := by rw [hm]; exact hru
      rw [if_neg hr']
      simp [hru]

lemma wchunks_map_bump_not (u : String) (m : Meta) (hm : ¬ m.video_id = u) :
    ∀ acc : List VideoRec,
      wchunks u (acc.map (fun r =>
        if r.video_id = m.video_id then { r with chunks := r.chunks + 1 }
        else r)) = wchunks u acc := by
  intro acc
  induction acc with
  | nil => rfl
  | cons r rest ih =>
    simp only [List.map_cons, wchunks_cons, ih]
    by_cases hr : r.video_id = m.video_id
    · have hru : ¬ r.video_id = u := by rw [hr]; exact hm
      rw [if_pos hr]
      have hp1 : ({ r with chunks := r.chunks + 1 } : VideoRec).video_id
          = r.video_id := rfl
      rw [hp1]
      simp [hru]
    · rw [if_neg hr]

lemma countP_pos_of_any (u : String) (m : Meta) (hmu : m.video_id = u)
    (acc : List VideoRec)
    (hany : acc.any (fun r => r.video_id = m.video_id) = true) :
    0 < acc.countP (fun r => r.video_id = u) := by
  obtain ⟨r, hr, hrv⟩ := List.any_eq_true.mp hany
  refine List.countP_pos_iff.mpr ⟨r, hr, ?_⟩
  simp only [decide_eq_true_eq] at hrv ⊢
  rw [hrv, hmu]

lemma countP_zero_of_not_any (u : String) (m : Meta) (hmu : m.video_id = u)
    (acc : List VideoRec)
    (hany : ¬ acc.any (fun r => r.video_id = m.video_id) = true) :
    acc.countP (fun r => r.video_id = u) = 0 := by
  rw [List.countP_eq_zero]
  intro r hr hrv
  apply hany
  refine List.any_eq_true.mpr ⟨r, hr, ?_⟩
  simp only [decide_eq_true_eq] at hrv ⊢
  rw [hrv, hmu]

lemma wchunks_append (u : String) (l1 l2 : List VideoRec) :
    wchunks u (l1 ++ l2) = wchunks u l1 + wchunks u l2 := by
  rw [wchunks, wchunks, wchunks, List.map_append, List.sum_append]

lemma lvInsert_countP (u : String) (m : Meta) (acc : List VideoRec)
    (hacc : acc.countP (fun r => r.video_id = u) ≤ 1) :
    (lvInsert acc m).countP (fun r => r.video_id = u)
      = if m.video_id = u then 1
        else acc.countP (fun r => r.video_id = u) := by
  simp only [lvInsert]
  by_cases hany : acc.any (fun r => r.video_id = m.video_id) = true
  · rw [if_pos hany, countP_map_bump]
    by_cases hmu : m.video_id = u
    · rw [if_pos hmu]
      have := countP_pos_of_any u m hmu acc hany
      omega
    · rw [if_neg hmu]
  · rw [if_neg hany, countP_map_bump, List.countP_append]
    by_cases hmu : m.video_id = u
    · rw [if_pos hmu, countP_zero_of_not_any u m hmu acc hany]
      simp [hmu]
    · rw [if_neg hmu]
      simp [hmu]

lemma lvInsert_wchunks (u : String) (m : Meta) (acc : List VideoRec)
    (hacc : acc.countP (fun r => r.video_id = u) ≤ 1) :
    wchunks u (lvInsert acc m)
      = wchunks u acc + (if m.video_id = u then 1 else 0) := by
  simp only [lvInsert]
  by_cases hany : acc.any (fun r => r.video_id = m.video_id) = true
  · rw [if_pos hany]
    by_cases hmu : m.video_id = u
    · rw [wchunks_map_bump_match u m hmu, if_pos hmu]
      have := countP_pos_of_any u m hmu acc hany
      omega
    · rw [wchunks_map_bump_not u m hmu, if_neg hmu]
      omega
  · rw [if_neg hany]
    by_cases hmu : m.video_id = u
    · rw [wchunks_map_bump_match u m hmu, wchunks_append, List.countP_append,
        countP_zero_of_not_any u m hmu acc hany]
      simp [wchunks, List.countP_cons, hmu]
    · rw [wchunks_map_bump_not u m hmu, if_neg hmu, wchunks_append]
      simp [wchunks]

lemma lv_fold (u : String) :
    ∀ (ms : List Meta) (acc : List VideoRec),
      acc.countP (fun r => r.video_id = u) ≤ 1 →
      ((List.foldl lvInsert acc ms).countP (fun r => r.video_id = u)
          = if 0 < acc.countP (fun r => r.video_id = u)
                ∨ 0 < ms.countP (fun m => m.video_id = u) then 1 else 0)
      ∧ wchunks u (List.foldl lvInsert acc ms)
          = wchunks u acc + ms.countP (fun m => m.video_id = u) := by
  intro ms
  induction ms with
  | nil =>
    intro acc hacc
    constructor
    · simp only [List.foldl_nil, List.countP_nil]
      by_cases h : 0 < acc.countP (fun r => r.video_id = u)
      · rw [if_pos (Or.inl h)]; omega
      · rw [if_neg (by simp [h])]; omega
    · simp [List.foldl_nil]
  | cons m rest ih =>
    intro acc hacc
    have hc := lvInsert_countP u m acc hacc
    have hw := lvInsert_wchunks u m acc hacc
    have hacc' : (lvInsert acc m).countP (fun r => r.video_id = u) ≤ 1 := by
      rw [hc]; split_ifs <;> omega
    obtain ⟨ih1, ih2⟩ := ih (lvInsert acc m) hacc'
    rw [List.foldl_cons]
    constructor
    · rw [ih1, hc, List.countP_cons]
      by_cases hmu : m.video_id = u
      · simp [hmu]
      · simp [hmu]
    · rw [ih2, hw, List.countP_cons]
      by_cases hmu : m.video_id = u
      · simp [hmu]
        omega
      · simp [hmu]

lemma wchunks_zero (u : String) :
    ∀ acc : List VideoRec,
      acc.countP (fun r => r.video_id = u) = 0 → wchunks u acc = 0 := by
  intro acc
  induction acc with
  | nil => intro _; rfl
  | cons r rest ih =>
    intro h
    rw [List.countP_cons] at h
    rw [wchunks_cons]
    by_cases hr : r.video_id = u
    · simp [hr] at h
    · rw [if_neg hr, ih (by omega)]

lemma wchunks_unique (u : String) :
    ∀ acc : List VideoRec,
      acc.countP (fun r => r.video_id = u) ≤ 1 →
      ∀ r ∈ acc, r.video_id = u → r.chunks = wchunks u acc := by
  intro acc
  induction acc with
  | nil => intro _ r hr; simp at hr
  | cons x rest ih =>
    intro hacc r hr hrv
    rw [wchunks_cons]
    rw [List.countP_cons] at hacc
    by_cases hx : x.video_id = u
    · have hacc1 : rest.countP (fun r => r.video_id = u) + 1 ≤ 1 := by
        simpa [hx] using hacc
      have h0 : rest.countP (fun r => r.video_id = u) = 0 := by omega
      rcases List.mem_cons.mp hr with rfl | hr
      · rw [if_pos hrv, wchunks_zero u rest h0]
        omega
      · exfalso
        have hpos : 0 < rest.countP (fun r => r.video_id = u) :=
          List.countP_pos_iff.mpr ⟨r, hr, by simp [hrv]⟩
        omega
    · have hacc1 : rest.countP (fun r => r.video_id = u) ≤ 1 := by
        simpa [hx] using hacc
      rw [if_neg hx]
      rcases List.mem_cons.mp hr with rfl | hr
      · exact absurd hrv hx
      · have := ih hacc1 r hr hrv
        omega

/-- CLAIM C1 — Re-index replace semantics: after any `add_transcript`
call for video `v` that returns `n`, the entries whose metadata
`video_id` is `v` are exactly the `n` entries built by that call: ids
`"v_i"` and `chunk_index` the contiguous integers `0..n-1` in chunk
order, documents the chunks in production order; every surviving entry
of another video was already present; `list_videos` shows exactly one
record for `v`, with chunk count `n`; `stats().total_chunks` counts
exactly `n` entries for `v` on top of the other videos' entries.  (A
returning call always has `n ≥ 1`: with zero chunks the backend rejects
the empty insert, so that call raises instead of returning.) -/
theorem reindex_replace_semantics
    (embed : List (List Char) → Option (List (List ℚ)))
    (coll : List Entry) (video_id : String) (metadata : VMeta)
    (transcript : List Char) (segments : List Seg) (cs ov : Int) (fuel : Nat)
    (coll' : List Entry) (n : Nat)
    (h : add_transcript embed coll video_id metadata transcript segments
        cs ov fuel = some (coll', Except.ok n)) :
    ((coll'.filter (fun e => e.meta.video_id = video_id)).map (fun e => e.id)
        = (List.range n).map (fun i => video_id ++ "_" ++ Nat.repr i))
    ∧ ((coll'.filter (fun e => e.meta.video_id = video_id)).map
          (fun e => e.meta.chunk_index) = List.range n)
    ∧ (∃ chunks, chunk_text transcript cs ov fuel = some chunks
        ∧ n = chunks.length
        ∧ (coll'.filter (fun e => e.meta.video_id = video_id)).map
            (fun e => e.document) = chunks
        ∧ coll'.filter (fun e => e.meta.video_id = video_id)
            = buildEntries video_id metadata chunks segments)
    ∧ coll'.countP (fun e => e.meta.video_id = video_id) = n
    ∧ (∀ e ∈ coll', e.meta.video_id ≠ video_id → e ∈ coll)
    ∧ (list_videos coll').countP (fun r => r.video_id = video_id) = 1
    ∧ (∀ r ∈ list_videos coll', r.video_id = video_id → r.chunks = n)
    ∧ (get_collection_stats coll').total_chunks
        = coll'.countP (fun e => ¬ e.meta.video_id = video_id) + n := by
  obtain ⟨chunks, hct, hne, hn, hco⟩ := add_transcript_ok embed coll video_id
    metadata transcript segments cs ov fuel coll' n h
  have hf1 : ((remove_video coll video_id).1).filter
      (fun e => e.meta.video_id = video_id) = [] :=
    List.filter_eq_nil_iff.mpr (fun e he => by
      simpa using remove_video_no_v coll video_id e he)
  have hf2 : (buildEntries video_id metadata chunks segments).filter
      (fun e => e.meta.video_id = video_id)
      = buildEntries video_id metadata chunks segments :=
    List.filter_eq_self.mpr (fun e he => by
      simpa using buildEntries_vid video_id metadata chunks segments e he)
  have hfilter : coll'.filter (fun e => e.meta.video_id = video_id)
      = buildEntries video_id metadata chunks segments := by
    rw [hco, List.filter_append, hf1, hf2, List.nil_append]
  have hlen : (buildEntries video_id metadata chunks segments).length
      = chunks.length := buildEntries_length _ _ _ _
  have hcount : coll'.countP (fun e => e.meta.video_id = video_id) = n := by
    rw [List.countP_eq_length_filter, hfilter, hlen, hn]
  have hq1 : (((remove_video coll video_id).1).map (fun e => e.meta)).countP
      (fun m => m.video_id = video_id) = 0 := by
    rw [List.countP_map, List.countP_eq_zero]
    intro e he
    simpa using remove_video_no_v coll video_id e he
  have hq2 : ((buildEntries video_id metadata chunks segments).map
      (fun e => e.meta)).countP (fun m => m.video_id = video_id) = n := by
    rw [List.countP_map]
    have hall : ∀ e ∈ buildEntries video_id metadata chunks segments,
        ((fun m : Meta => decide (m.video_id = video_id)) ∘
          (fun e : Entry => e.meta)) e = true := by
      intro e he
      simpa using buildEntries_vid video_id metadata chunks segments e he
    rw [List.countP_eq_length.mpr hall, hlen, hn]
  have hlv : list_videos coll' = List.foldl lvInsert
      (List.foldl lvInsert []
        (((remove_video coll video_id).1).map (fun e => e.meta)))
      ((buildEntries video_id metadata chunks segments).map
        (fun e => e.meta)) := by
    rw [list_videos, hco, List.map_append, List.foldl_append]
  obtain ⟨hA1, hA2⟩ := lv_fold video_id
    (((remove_video coll video_id).1).map (fun e => e.meta)) [] (by simp)
  have hcA : (List.foldl lvInsert []
      (((remove_video coll video_id).1).map (fun e => e.meta))).countP
      (fun r => r.video_id = video_id) = 0 := by
    rw [hA1, hq1]
    simp
  have hwA : wchunks video_id (List.foldl lvInsert []
      (((remove_video coll video_id).1).map (fun e => e.meta))) = 0 := by
    rw [hA2, hq1]
    rfl
  obtain ⟨hB1, hB2⟩ := lv_fold video_id
    ((buildEntries video_id metadata chunks segments).map (fun e => e.meta))
    (List.foldl lvInsert []
      (((remove_video coll video_id).1).map (fun e => e.meta)))
    (by rw [hcA]; omega)
  refine ⟨?_, ?_, ⟨chunks, hct, hn, ?_, hfilter⟩, hcount, ?_, ?_, ?_, ?_⟩
  · rw [hfilter, hn]
    exact buildEntries_map_id video_id metadata chunks segments
  · rw [hfilter, hn]
    exact buildEntries_map_idx video_id metadata chunks segments
  · rw [hfilter]
    exact buildEntries_map_doc video_id metadata chunks segments
  · intro e he hev
    rw [hco] at he
    rcases List.mem_append.mp he with he1 | he2
    · exact remove_video_sub coll video_id e he1
    · exact absurd (buildEntries_vid video_id metadata chunks segments e he2)
        hev
  · rw [hlv, hB1, hcA, hq2]
    have hpos : 0 < n := by
      rw [hn]
      exact List.length_pos.mpr hne
    simp [hpos]
  · intro r hr hrv
    rw [hlv] at hr
    have hle1 : (List.foldl lvInsert
        (List.foldl lvInsert []
          (((remove_video coll video_id).1).map (fun e => e.meta)))
        ((buildEntries video_id metadata chunks segments).map
          (fun e => e.meta))).countP (fun r => r.video_id = video_id) ≤ 1 := by
      rw [hB1]
      split_ifs <;> omega
    have := wchunks_unique video_id _ hle1 r hr hrv
    rw [this, hB2, hwA, hq2]
    omega
  · have hstats : (get_collection_stats coll').total_chunks = coll'.length :=
      rfl
    have hsplit := List.length_eq_countP_add_countP
      (fun e => decide (e.meta.video_id = video_id)) coll'
    have hcongr : coll'.countP
        (fun e => decide ¬(decide (e.meta.video_id = video_id) = true))
        = coll'.countP (fun e => ¬ e.meta.video_id = video_id) :=
      List.countP_congr (fun e _ => by
        by_cases hh : e.meta.video_id = video_id <;> simp [hh])
    rw [hstats]
    omega

/-- Witness for `reindex_replace_semantics` on a one-chunk index. -/
theorem reindex_replace_witness :
    (([mkEntry "v" vm0 [seg0] (0, ['a', 'b'])].filter
        (fun e => e.meta.video_id = "v")).map (fun e => e.id)
      = (List.range 1).map (fun i => "v" ++ "_" ++ Nat.repr i))
    ∧ (list_videos [mkEntry "v" vm0 [seg0] (0, ['a', 'b'])]).countP
        (fun r => r.video_id = "v") = 1 :=
  ⟨(reindex_replace_semantics embedOk [] "v" vm0 ['a', 'b'] [seg0] 10 2 1
      [mkEntry "v" vm0 [seg0] (0, ['a', 'b'])] 1 (by rfl)).1,
   (reindex_replace_semantics embedOk [] "v" vm0 ['a', 'b'] [seg0] 10 2 1
      [mkEntry "v" vm0 [seg0] (0, ['a', 'b'])] 1 (by rfl)).2.2.2.2.2.1⟩

/-- Witness for `search_ordering` on a one-entry collection. -/
theorem search_ordering_witness :
    sres0.similarity = 1 - sres0.distance
    ∧ (search dist0 coll0 2).Pairwise
        (fun a b => b.similarity ≤ a.similarity) :=
  ⟨(search_ordering dist0 coll0 2).1 sres0 (List.mem_singleton.mpr rfl),
   (search_ordering dist0 coll0 2).2⟩
